import Mathlib

/-!
Shallow embedding of `src/buffered_line_reader.py` (class `BufferedLineReader`).

Bytes are modelled as `Nat` (values 0..255), byte strings as `List Nat`,
Python strings (paths, attribute values, decoded text) as `List Char`.
Python exceptions are modelled with `Except String`.  Wall-clock times and
float ratios are modelled as exact rationals (binary floating-point rounding
is abstracted away; no claim depends on it).
-/

set_option autoImplicit false

abbrev Byte := Nat

abbrev Text := List Char

/-- The five compression formats of `BufferedLineReader` (class constants
`COMPRESSION_NONE`, `COMPRESSION_GZIP`, `COMPRESSION_BZIP2`, `COMPRESSION_XZ`,
`COMPRESSION_LZMA`). -/
inductive Fmt
  | none
  | gz
  | bz2
  | xz
  | lzma
deriving DecidableEq, Repr

/-- The `DEFAULT_CHUNK_SIZES` dictionary.  Every `Fmt` value is a key, so the
`.get(..., 16 * 1024 * 1024)` fallback in `_get_chunk_size` is unreachable;
the dictionary is modelled as a total function. -/
def DEFAULT_CHUNK_SIZES : Fmt → Int
  | Fmt.none => 128 * 1024 * 1024
  | Fmt.gz => 32 * 1024 * 1024
  | Fmt.bz2 => 16 * 1024 * 1024
  | Fmt.xz => 32 * 1024 * 1024
  | Fmt.lzma => 32 * 1024 * 1024

/-- A Python binary-stream object as seen by the reader: its optional `name`
attribute (`Option.none` models an object without a `name` attribute, or with
a non-string `name`), its optional `mode` attribute (`Option.none` models an
object without a `mode` attribute, e.g. `io.BytesIO` / `io.StringIO`), and
whether the object actually produces bytes (binary) rather than text. -/
structure StreamObj where
  name? : Option Text
  mode? : Option Text
  isBinary : Bool
deriving DecidableEq, Repr

/-- The `file_or_path` constructor argument: a path string or a stream object. -/
inductive FileSrc
  | path (p : Text)
  | stream (s : StreamObj)
deriving DecidableEq, Repr

/-- The file-related attributes set by `_initialize_file_properties`:
`self.file_path` and `self.file_obj`. -/
structure FileProps where
  file_path : Text
  file_obj : Option StreamObj
deriving DecidableEq, Repr

/-- Models `_initialize_file_properties`.  For a path it records the path
and no file object.  For a stream it records the stream and takes `file_path` from the
stream's `name` attribute (default `"<unknown>"`), then raises
`ValueError("file_obj must be opened in binary mode ...")` when the stream
exposes a `mode` attribute that does not contain the letter `b`. -/
def init_file_props : FileSrc → Except String FileProps
  | FileSrc.path p => Except.ok ⟨p, Option.none⟩
  | FileSrc.stream s =>
      let fp := s.name?.getD "<unknown>".toList
      match s.mode? with
      | Option.some m =>
          if (m.contains 'b') = false then
            Except.error "file_obj must be opened in binary mode"
          else Except.ok ⟨fp, Option.some s⟩
      | Option.none => Except.ok ⟨fp, Option.some s⟩

/-- Models `_detect_compression_type`: first matching suffix of
`self.file_path` in the insertion order of `compression_map`, defaulting to
`COMPRESSION_NONE`.  (`self.file_path` is always a string in the model; a
stream whose `name` attribute is absent or not a string yields the
unrecognized string `"<unknown>"`, hence `Fmt.none`, matching the
`isinstance(self.file_path, str)` guard.) -/
def detect_compression_type (file_path : Text) : Fmt :=
  if ".gz".toList.isSuffixOf file_path then Fmt.gz
  else if ".bz2".toList.isSuffixOf file_path then Fmt.bz2
  else if ".xz".toList.isSuffixOf file_path then Fmt.xz
  else if ".lzma".toList.isSuffixOf file_path then Fmt.lzma
  else Fmt.none

/-- The constructor's format-detection step: `_initialize_file_properties`
followed by `_detect_compression_type`. -/
def readerFormat (src : FileSrc) : Except String Fmt :=
  (init_file_props src).map (fun props => detect_compression_type props.file_path)

/-- Models `_get_chunk_size`: `if self.user_chunk_size:` is Python truthiness,
so `None` and `0` both fall back to the per-format default. -/
def get_chunk_size (user_chunk_size : Option Int) (compression_type : Fmt) : Int :=
  match user_chunk_size with
  | Option.some n => if n ≠ 0 then n else DEFAULT_CHUNK_SIZES compression_type
  | Option.none => DEFAULT_CHUNK_SIZES compression_type

/-- The closable state of a reader: `file_obj` is `none` when no file object
exists, `some b` when one exists with `closed` attribute `b`; `closed` is the
reader's own `self.closed` flag. -/
structure CloseState where
  file_obj : Option Bool
  closed : Bool
deriving DecidableEq, Repr

/-- Models `close()`: if a file object exists and is not closed, close it
(exceptions from the underlying `close` are swallowed by `try/except pass`);
in every case set `self.closed = True`. -/
def close (s : CloseState) : CloseState :=
  match s.file_obj with
  | Option.some fclosed =>
      if fclosed = false then ⟨Option.some true, true⟩
      else ⟨Option.some fclosed, true⟩
  | Option.none => ⟨Option.none, true⟩

/-- Replacement character U+FFFD, produced by Python's `errors="replace"`
decode policy. -/
def repl : Char := Char.ofNat 0xFFFD

/-- A UTF-8 continuation byte (0x80..0xBF). -/
def isCont (b : Byte) : Bool := 0x80 ≤ b && b ≤ 0xBF

/-- Lower bound of the valid second byte for a given UTF-8 lead byte
(0xE0 and 0xF0 have raised lower bounds, excluding overlong encodings). -/
def utf8SecondLo (b : Byte) : Byte :=
  if b = 0xE0 then 0xA0 else if b = 0xF0 then 0x90 else 0x80

/-- Upper bound of the valid second byte for a given UTF-8 lead byte
(0xED excludes surrogates, 0xF4 caps at U+10FFFF). -/
def utf8SecondHi (b : Byte) : Byte :=
  if b = 0xED then 0x9F else if b = 0xF4 then 0x8F else 0xBF

/-- Valid second byte for a multi-byte lead. -/
def utf8SecondOk (b b2 : Byte) : Bool :=
  utf8SecondLo b ≤ b2 && b2 ≤ utf8SecondHi b

/-- One step of CPython's UTF-8 decoder under `errors="replace"`: decode one
scalar from the front of the byte list, or consume the maximal prefix of a
valid sequence (at least one byte) and produce U+FFFD.  Returns the decoded
character and the remaining bytes; `none` on empty input.  This models the
standard-library codec that `bytes.decode(self.encoding, errors=self.errors)`
delegates to, at the reader's default arguments `encoding="utf-8"`,
`errors="replace"`. -/
def utf8Step : List Byte → Option (Char × List Byte)
  | [] => Option.none
  | b :: rest =>
    if b < 0x80 then Option.some (Char.ofNat b, rest)
    else if b < 0xC2 then Option.some (repl, rest)
    else if b < 0xE0 then
      match rest with
      | [] => Option.some (repl, [])
      | b2 :: rest2 =>
        if isCont b2 then
          Option.some (Char.ofNat ((b - 0xC0) * 64 + (b2 - 0x80)), rest2)
        else Option.some (repl, rest)
    else if b < 0xF0 then
      match rest with
      | [] => Option.some (repl, [])
      | b2 :: rest2 =>
        if utf8SecondOk b b2 then
          match rest2 with
          | [] => Option.some (repl, [])
          | b3 :: rest3 =>
            if isCont b3 then
              Option.some (Char.ofNat ((b - 0xE0) * 4096 + (b2 - 0x80) * 64 + (b3 - 0x80)), rest3)
            else Option.some (repl, rest2)
        else Option.some (repl, rest)
    else if b < 0xF5 then
      match rest with
      | [] => Option.some (repl, [])
      | b2 :: rest2 =>
        if utf8SecondOk b b2 then
          match rest2 with
          | [] => Option.some (repl, [])
          | b3 :: rest3 =>
            if isCont b3 then
              match rest3 with
              | [] => Option.some (repl, [])
              | b4 :: rest4 =>
                if isCont b4 then
                  Option.some
                    (Char.ofNat ((b - 0xF0) * 262144 + (b2 - 0x80) * 4096 +
                      (b3 - 0x80) * 64 + (b4 - 0x80)), rest4)
                else Option.some (repl, rest3)
            else Option.some (repl, rest2)
        else Option.some (repl, rest)
    else Option.some (repl, rest)

/-- Fueled driver for `utf8Step`; each step consumes at least one byte, so
fuel equal to the length of the input always suffices. -/
def utf8Go : Nat → List Byte → Text
  | 0, _ => []
  | fuel + 1, bs =>
    match utf8Step bs with
    | Option.none => []
    | Option.some (c, rest) => c :: utf8Go fuel rest

/-- `bytes.decode("utf-8", errors="replace")`. -/
def pyDecodeUtf8Replace (bs : List Byte) : Text := utf8Go bs.length bs

/-- Python's `str.split("\n")`: the list of fragments between newline
characters; always non-empty, with `""` fragments for leading, trailing or
adjacent newlines. -/
def splitNl : Text → List Text
  | [] => [[]]
  | c :: rest =>
    if c = '\n' then [] :: splitNl rest
    else
      match splitNl rest with
      | p :: ps => (c :: p) :: ps
      | [] => [[c]]

/-- Inverse of `splitNl`: re-join fragments with a newline between each pair. -/
def joinNl : List Text → Text
  | [] => []
  | [x] => x
  | x :: rest => x ++ '\n' :: joinNl rest

/-- The statistics counters updated by `_read_lines_from_chunks`
(`self._line_count` via `_track_line`, and `self._bytes_processed`). -/
structure RState where
  line_count : Nat
  bytes_processed : Nat
deriving DecidableEq, Repr

/-- The chunk loop of `_read_lines_from_chunks`: for each non-empty chunk,
count its bytes, decode it in isolation, append to the text accumulator, and
if the accumulator contains a newline emit every fragment but the last and
keep the last as the new accumulator.  Returns (lines yielded so far, final
accumulator, final counters).  The decode function is a parameter; the
reader's default is `pyDecodeUtf8Replace`. -/
def readChunksLoop (dec : List Byte → Text) :
    RState → Text → List (List Byte) → List Text × Text × RState
  | st, buf, [] => ([], buf, st)
  | st, buf, c :: rest =>
    if c = [] then readChunksLoop dec st buf rest
    else
      let st1 : RState := ⟨st.line_count, st.bytes_processed + c.length⟩
      let tb := buf ++ dec c
      if '\n' ∈ tb then
        let parts := splitNl tb
        let newLines := parts.dropLast
        let st2 : RState := ⟨st1.line_count + newLines.length, st1.bytes_processed⟩
        let r := readChunksLoop dec st2 (parts.getLastD []) rest
        (newLines ++ r.1, r.2.1, r.2.2)
      else
        readChunksLoop dec st1 tb rest

/-- Models `_read_lines_from_chunks`: run the chunk loop from an empty
accumulator, then flush a non-empty final accumulator as the last line. -/
def read_lines_from_chunks (dec : List Byte → Text) (st : RState)
    (chunks : List (List Byte)) : List Text × RState :=
  let r := readChunksLoop dec st [] chunks
  if r.2.1 ≠ [] then
    (r.1 ++ [r.2.1], ⟨r.2.2.line_count + 1, r.2.2.bytes_processed⟩)
  else (r.1, r.2.2)

/-- The text the reader actually decodes: concatenation of the per-chunk
decodes of the non-empty chunks (empty chunks are skipped by `continue`). -/
def decodedText (dec : List Byte → Text) : List (List Byte) → Text
  | [] => []
  | c :: rest => if c = [] then decodedText dec rest else dec c ++ decodedText dec rest

/-- Total bytes counted by the loop (empty chunks are skipped, which adds 0
either way). -/
def totalBytes : List (List Byte) → Nat
  | [] => 0
  | c :: rest => if c = [] then totalBytes rest else c.length + totalBytes rest

/-- Fueled worker for `chunksOf`; each step consumes at least one byte when
`size ≥ 1`, so fuel equal to the length of the input always suffices. -/
def chunksOfGo : Nat → Nat → List Byte → List (List Byte)
  | 0, _, _ => []
  | fuel + 1, size, bs =>
    if bs = [] ∨ size = 0 then []
    else bs.take size :: chunksOfGo fuel size (bs.drop size)

/-- Splitting a byte stream into successive chunks of `size` bytes, as the
producer's `read(chunk_size)` calls deliver them; `size = 0` is excluded by
the loop guard. -/
def chunksOf (size : Nat) (bs : List Byte) : List (List Byte) :=
  chunksOfGo bs.length size bs

/-- One outcome of a `self.file_obj.read(chunk_size)` call in the producer
thread: a returned byte string, or a raised exception (identified by a
number).  A finite source is a list of outcomes; reads past the end of the
list return the empty byte string. -/
inductive ReadOutcome
  | ok (b : List Byte)
  | err (e : Nat)
deriving DecidableEq, Repr

/-- A value travelling through the bounded queue of
`_buffered_chunk_iterator`: a byte chunk, the end-of-stream sentinel `None`,
or an exception object pushed by the producer's `except` clause. -/
inductive QItem
  | chunk (b : List Byte)
  | sentinel
  | exn (e : Nat)
deriving DecidableEq, Repr

/-- The producer (`chunk_reader` in `_buffered_chunk_iterator`): repeatedly
read; on an empty read push the sentinel and stop; on a non-empty read push
the chunk; on an exception push the exception object itself and stop.  The
queue preserves the push order, so the producer is modelled as the ordered
list of its pushes. -/
def chunk_reader : List ReadOutcome → List QItem
  | [] => [QItem.sentinel]
  | ReadOutcome.ok b :: rest =>
      if b = [] then [QItem.sentinel] else QItem.chunk b :: chunk_reader rest
  | ReadOutcome.err e :: _ => [QItem.exn e]

/-- The consumer loop of `_buffered_chunk_iterator`: pull items in order; an
exception value is re-raised (recorded as `some e`, ending the sequence), the
sentinel ends the sequence normally, any other value is yielded as a chunk. -/
def consumeQueue : List QItem → List (List Byte) × Option Nat
  | [] => ([], Option.none)
  | QItem.chunk b :: rest =>
      let r := consumeQueue rest
      (b :: r.1, r.2)
  | QItem.sentinel :: _ => ([], Option.none)
  | QItem.exn e :: _ => ([], Option.some e)

/-- What the buffered path should deliver, read off the source directly: the
successful non-empty chunks up to the first empty read (normal end, no
error), or up to the first failing read (that error, re-raised). -/
def bufferedDeliverySpec : List ReadOutcome → List (List Byte) × Option Nat
  | [] => ([], Option.none)
  | ReadOutcome.ok b :: rest =>
      if b = [] then ([], Option.none)
      else
        let r := bufferedDeliverySpec rest
        (b :: r.1, r.2)
  | ReadOutcome.err e :: _ => ([], Option.some e)

/-- Prepend `x` to the first fragment of a fragment list (used to state how
`splitNl` acts on concatenations). -/
def consHead (x : Text) : List Text → List Text
  | p :: ps => (x ++ p) :: ps
  | [] => [x]

/-- `os.path.basename` on a POSIX path: the characters after the last `/`. -/
def basename (p : Text) : Text :=
  p.foldl (fun acc c => if c = '/' then [] else acc ++ [c]) []

/-- Python's `round(x, 2)` modelled on exact rationals. -/
def round2 (x : ℚ) : ℚ := ((round (x * 100) : ℤ) : ℚ) / 100

/-- The dictionary returned by `get_stats`. -/
structure Stats where
  file : Text
  mode : Option String
  lines : Nat
  bytes : Nat
  time : ℚ
  lines_per_s : Int
  mb_per_s : ℚ
deriving DecidableEq, Repr

/-- Models `get_stats()`: derived throughput is guarded by
`if self._total_time > 0`, else reported as zero.  `int(x)` on the
non-negative ratio is the floor.  `file_path?` is `none` when
`self.file_path` is not a string (a stream whose `name` attribute is a
non-string object), mirroring the `isinstance(self.file_path, str)` check. -/
def get_stats (file_path? : Option Text) (mode : Option String)
    (line_count bytes_processed : Nat) (total_time : ℚ) : Stats :=
  let mb : ℚ := (bytes_processed : ℚ) / (1024 * 1024)
  let lines_per_sec : Int := if 0 < total_time then ⌊(line_count : ℚ) / total_time⌋ else 0
  let mb_per_sec : ℚ := if 0 < total_time then mb / total_time else 0
  { file := match file_path? with
      | Option.some p => basename p
      | Option.none => "<stream>".toList
    mode := mode
    lines := line_count
    bytes := bytes_processed
    time := round2 total_time
    lines_per_s := lines_per_sec
    mb_per_s := round2 mb_per_sec }

theorem splitNl_ne_nil (s : Text) : splitNl s ≠ [] := by
  induction s with
  | nil => simp [splitNl]
  | cons c rest ih =>
      simp only [splitNl]
      by_cases hc : c = '\n'
      · simp [hc]
      · rcases h : splitNl rest with _ | ⟨p, ps⟩
        · exact absurd h ih
        · simp [hc, h]

theorem getLastD_irrel {α : Type} (l : List α) (h : l ≠ []) (d₁ d₂ : α) :
    l.getLastD d₁ = l.getLastD d₂ := by
  cases l with
  | nil => exact absurd rfl h
  | cons a t => rw [List.getLastD_cons, List.getLastD_cons]

theorem getLastD_mem {α : Type} : ∀ (l : List α), l ≠ [] → ∀ d, l.getLastD d ∈ l := by
  intro l
  induction l with
  | nil => intro h; exact absurd rfl h
  | cons a t ih =>
      intro _ d
      rw [List.getLastD_cons]
      cases t with
      | nil => simp
      | cons b bs => exact List.mem_cons_of_mem a (ih (by simp) a)

theorem dropLast_append_getLastD {α : Type} :
    ∀ (l : List α), l ≠ [] → ∀ d, l.dropLast ++ [l.getLastD d] = l := by
  intro l
  induction l with
  | nil => intro h; exact absurd rfl h
  | cons a t ih =>
      intro _ d
      cases t with
      | nil => rfl
      | cons b bs =>
          rw [List.dropLast_cons₂, List.getLastD_cons, List.cons_append, ih (by simp) a]

theorem dropLast_append_ne_nil {α : Type} :
    ∀ (x : List α) {y : List α}, y ≠ [] → (x ++ y).dropLast = x ++ y.dropLast := by
  intro x
  induction x with
  | nil => intro y h; simp
  | cons a t ih =>
      intro y h
      rcases h2 : t ++ y with _ | ⟨b, bs⟩
      · rcases List.append_eq_nil.mp h2 with ⟨h3, h4⟩
        exact absurd h4 h
      · rw [List.cons_append, h2, List.dropLast_cons₂, ← h2, ih h, List.cons_append]

theorem getLastD_append_ne_nil {α : Type} :
    ∀ (x : List α) {y : List α}, y ≠ [] → ∀ d, (x ++ y).getLastD d = y.getLastD d := by
  intro x
  induction x with
  | nil => intro y h d; rfl
  | cons a t ih =>
      intro y h d
      rw [List.cons_append, List.getLastD_cons, ih h a]
      exact getLastD_irrel y h a d

theorem splitNl_no_nl : ∀ (s : Text), ∀ p ∈ splitNl s, '\n' ∉ p := by
  intro s
  induction s with
  | nil =>
      intro p hp
      simp only [splitNl, List.mem_singleton] at hp
      subst hp
      simp
  | cons c rest ih =>
      intro p hp
      by_cases hc : c = '\n'
      · have hsplit : splitNl (c :: rest) = [] :: splitNl rest := by
          simp [splitNl, hc]
        rw [hsplit] at hp
        rcases List.mem_cons.mp hp with h1 | h1
        · subst h1; simp
        · exact ih p h1
      · rcases h : splitNl rest with _ | ⟨q, qs⟩
        · exact absurd h (splitNl_ne_nil rest)
        · have hsplit : splitNl (c :: rest) = (c :: q) :: qs := by
            simp [splitNl, hc, h]
          rw [hsplit] at hp
          rcases List.mem_cons.mp hp with h1 | h1
          · subst h1
            intro hmem
            rcases List.mem_cons.mp hmem with h2 | h2
            · exact hc h2.symm
            · exact ih q (by rw [h]; exact List.mem_cons_self q qs) h2
          · exact ih p (by rw [h]; exact List.mem_cons_of_mem q h1)

theorem splitNl_of_not_mem : ∀ {s : Text}, '\n' ∉ s → splitNl s = [s] := by
  intro s
  induction s with
  | nil => intro h; rfl
  | cons c rest ih =>
      intro h
      have hc : ¬(c = '\n') := by
        intro hc
        exact h (hc ▸ List.mem_cons_self c rest)
      have hr : '\n' ∉ rest := fun hm => h (List.mem_cons_of_mem c hm)
      simp only [splitNl, hc, if_false, ih hr]

theorem consHead_ne_nil (x : Text) (l : List Text) : consHead x l ≠ [] := by
  cases l <;> simp [consHead]

theorem splitNl_append : ∀ (a b : Text),
    splitNl (a ++ b) =
      (splitNl a).dropLast ++ consHead ((splitNl a).getLastD []) (splitNl b) := by
  intro a b
  induction a with
  | nil =>
      rcases h : splitNl b with _ | ⟨p, ps⟩
      · exact absurd h (splitNl_ne_nil b)
      · rw [List.nil_append, h]
        simp [splitNl, consHead]
  | cons c a' ih =>
      by_cases hc : c = '\n'
      · rcases h : splitNl a' with _ | ⟨p, ps⟩
        · exact absurd h (splitNl_ne_nil a')
        · have h1 : splitNl (c :: (a' ++ b)) = [] :: splitNl (a' ++ b) := by
            simp [splitNl, hc]
          have h2 : splitNl (c :: a') = [] :: splitNl a' := by
            simp [splitNl, hc]
          rw [List.cons_append, h1, h2, ih, h, List.dropLast_cons₂, List.getLastD_cons,
            List.cons_append]
          simp only [List.getLastD_cons]
      · rcases h : splitNl a' with _ | ⟨p, ps⟩
        · exact absurd h (splitNl_ne_nil a')
        · have h2 : splitNl (c :: a') = (c :: p) :: ps := by
            simp [splitNl, hc, h]
          rcases hb : splitNl b with _ | ⟨q, qs⟩
          · exact absurd hb (splitNl_ne_nil b)
          · cases ps with
            | nil =>
                have hinner : splitNl (a' ++ b) = (p ++ q) :: qs := by
                  rw [ih, h, hb]
                  simp [consHead]
                have h1 : splitNl (c :: (a' ++ b)) = (c :: (p ++ q)) :: qs := by
                  simp [splitNl, hc, hinner]
                rw [List.cons_append, h1, h2]
                simp [consHead]
            | cons p2 ps2 =>
                have hinner : splitNl (a' ++ b) =
                    p :: ((p2 :: ps2).dropLast ++ consHead ((p2 :: ps2).getLastD p) (q :: qs)) := by
                  rw [ih, h, hb, List.dropLast_cons₂, List.getLastD_cons, List.cons_append]
                have h1 : splitNl (c :: (a' ++ b)) =
                    (c :: p) ::
                      ((p2 :: ps2).dropLast ++ consHead ((p2 :: ps2).getLastD p) (q :: qs)) := by
                  simp [splitNl, hc, hinner]
                rw [List.cons_append, h1, h2, List.dropLast_cons₂, List.getLastD_cons,
                  List.cons_append]
                simp only [List.getLastD_cons]

theorem splitNl_append_chain (tb T2 : Text) :
    splitNl (tb ++ T2) =
      (splitNl tb).dropLast ++ splitNl ((splitNl tb).getLastD [] ++ T2) := by
  have hg : '\n' ∉ (splitNl tb).getLastD [] :=
    splitNl_no_nl tb _ (getLastD_mem (splitNl tb) (splitNl_ne_nil tb) [])
  rw [splitNl_append tb T2, splitNl_append ((splitNl tb).getLastD []) T2,
    splitNl_of_not_mem hg]
  rfl

theorem readChunksLoop_eq (dec : List Byte → Text) :
    ∀ (chunks : List (List Byte)) (st : RState) (buf : Text), '\n' ∉ buf →
      readChunksLoop dec st buf chunks =
        ((splitNl (buf ++ decodedText dec chunks)).dropLast,
         (splitNl (buf ++ decodedText dec chunks)).getLastD [],
         ⟨st.line_count + (splitNl (buf ++ decodedText dec chunks)).dropLast.length,
          st.bytes_processed + totalBytes chunks⟩) := by
  intro chunks
  induction chunks with
  | nil =>
      intro st buf hbuf
      have hd : decodedText dec [] = [] := rfl
      have hb : totalBytes ([] : List (List Byte)) = 0 := rfl
      rw [hd, hb, List.append_nil, splitNl_of_not_mem hbuf]
      simp [readChunksLoop]
  | cons c rest ih =>
      intro st buf hbuf
      by_cases hcnil : c = []
      · subst hcnil
        have h1 : readChunksLoop dec st buf ([] :: rest) = readChunksLoop dec st buf rest := by
          simp [readChunksLoop]
        have h2 : decodedText dec ([] :: rest) = decodedText dec rest := by
          simp [decodedText]
        have h3 : totalBytes ([] :: rest) = totalBytes rest := by
          simp [totalBytes]
        rw [h1, h2, h3]
        exact ih st buf hbuf
      · have hdT : decodedText dec (c :: rest) = dec c ++ decodedText dec rest := by
          simp [decodedText, hcnil]
        have hbT : totalBytes (c :: rest) = c.length + totalBytes rest := by
          simp [totalBytes, hcnil]
        by_cases hnl : '\n' ∈ buf ++ dec c
        · have hg : '\n' ∉ (splitNl (buf ++ dec c)).getLastD [] :=
            splitNl_no_nl _ _ (getLastD_mem _ (splitNl_ne_nil _) [])
          have hr := ih ⟨st.line_count + (splitNl (buf ++ dec c)).dropLast.length,
            st.bytes_processed + c.length⟩ ((splitNl (buf ++ dec c)).getLastD []) hg
          have hsplit : splitNl (buf ++ decodedText dec (c :: rest)) =
              (splitNl (buf ++ dec c)).dropLast ++
                splitNl ((splitNl (buf ++ dec c)).getLastD [] ++ decodedText dec rest) := by
            rw [hdT, ← List.append_assoc, splitNl_append_chain]
          have hne : splitNl ((splitNl (buf ++ dec c)).getLastD [] ++ decodedText dec rest) ≠ [] :=
            splitNl_ne_nil _
          simp only [readChunksLoop, if_neg hcnil, if_pos hnl]
          rw [hr, hsplit, dropLast_append_ne_nil _ hne, getLastD_append_ne_nil _ hne, hbT]
          simp [List.length_append, Nat.add_assoc]
        · have hr := ih ⟨st.line_count, st.bytes_processed + c.length⟩ (buf ++ dec c) hnl
          simp only [readChunksLoop, if_neg hcnil, if_neg hnl]
          rw [hr, hdT, ← List.append_assoc, hbT]
          simp [Nat.add_assoc]

/-- The lines `_read_lines_from_chunks` yields, characterized once and for
all: every newline-terminated fragment of the decoded text, plus the final
fragment exactly when it is non-empty. -/
theorem read_lines_eq (dec : List Byte → Text) (st : RState) (chunks : List (List Byte)) :
    read_lines_from_chunks dec st chunks =
      (if (splitNl (decodedText dec chunks)).getLastD [] = [] then
         (splitNl (decodedText dec chunks)).dropLast
       else splitNl (decodedText dec chunks),
       ⟨st.line_count +
          (if (splitNl (decodedText dec chunks)).getLastD [] = [] then
             (splitNl (decodedText dec chunks)).dropLast
           else splitNl (decodedText dec chunks)).length,
        st.bytes_processed + totalBytes chunks⟩) := by
  have hloop := readChunksLoop_eq dec chunks st [] (by simp)
  rw [List.nil_append] at hloop
  set T := decodedText dec chunks with hT
  set S := splitNl T with hS
  unfold read_lines_from_chunks
  rw [hloop]
  dsimp only
  by_cases hlast : S.getLastD [] = []
  · rw [if_neg (not_not_intro hlast), if_pos hlast]
  · have hSne : S ≠ [] := splitNl_ne_nil T
    have hfull : S.dropLast ++ [S.getLastD []] = S := dropLast_append_getLastD S hSne []
    have hlen : S.dropLast.length + 1 = S.length := by
      have h2 := congrArg List.length hfull
      simpa using h2
    rw [if_pos hlast, if_neg hlast, hfull]
    simp only [Prod.mk.injEq, RState.mk.injEq]
    refine ⟨trivial, ?_, trivial⟩
    omega

theorem joinNl_splitNl : ∀ t : Text, joinNl (splitNl t) = t := by
  intro t
  induction t with
  | nil => rfl
  | cons c rest ih =>
      by_cases hc : c = '\n'
      · have hsplit : splitNl (c :: rest) = [] :: splitNl rest := by
          simp [splitNl, hc]
        rcases h : splitNl rest with _ | ⟨q, qs⟩
        · exact absurd h (splitNl_ne_nil rest)
        · rw [hsplit, h]
          have hj : joinNl ([] :: q :: qs) = [] ++ '\n' :: joinNl (q :: qs) := rfl
          rw [hj, List.nil_append, ← h, ih, hc]
      · rcases h : splitNl rest with _ | ⟨q, qs⟩
        · exact absurd h (splitNl_ne_nil rest)
        · have hsplit : splitNl (c :: rest) = (c :: q) :: qs := by
            simp [splitNl, hc, h]
          rw [hsplit]
          cases qs with
          | nil =>
              have hj : joinNl [c :: q] = c :: q := rfl
              rw [hj]
              have hr : joinNl [q] = q := rfl
              rw [h] at ih
              rw [hr] at ih
              rw [ih]
          | cons q2 qs2 =>
              have hj : joinNl ((c :: q) :: q2 :: qs2) = (c :: q) ++ '\n' :: joinNl (q2 :: qs2) := rfl
              have hr : joinNl (q :: q2 :: qs2) = q ++ '\n' :: joinNl (q2 :: qs2) := rfl
              rw [h, hr] at ih
              rw [hj, List.cons_append, ih]

theorem joinNl_append_last : ∀ (L : List Text), L ≠ [] → ∀ x : Text,
    joinNl (L ++ [x]) = joinNl L ++ '\n' :: x := by
  intro L
  induction L with
  | nil => intro h; exact absurd rfl h
  | cons a t ih =>
      intro _ x
      cases t with
      | nil => rfl
      | cons b bs =>
          have h1 : joinNl ((a :: b :: bs) ++ [x]) = a ++ '\n' :: joinNl ((b :: bs) ++ [x]) := rfl
          have h2 : joinNl (a :: b :: bs) = a ++ '\n' :: joinNl (b :: bs) := rfl
          rw [h1, h2, ih (by simp) x, List.append_assoc, List.cons_append]

theorem splitNl_getLastD_of_end_nl :
    ∀ t : Text, t.getLast? = Option.some '\n' → (splitNl t).getLastD [] = [] := by
  intro t
  induction t with
  | nil => intro h; exact Option.noConfusion h
  | cons c rest ih =>
      intro h
      by_cases hrest : rest = []
      · subst hrest
        have hc : c = '\n' := by
          simpa using h
        subst hc
        rfl
      · have hlast : rest.getLast? = Option.some '\n' := by
          rcases rest with _ | ⟨r, rs⟩
          · exact absurd rfl hrest
          · rw [List.getLast?_cons_cons] at h
            exact h
        by_cases hc : c = '\n'
        · have hsplit : splitNl (c :: rest) = [] :: splitNl rest := by
            simp [splitNl, hc]
          rw [hsplit, List.getLastD_cons]
          exact ih hlast
        · rcases hsp : splitNl rest with _ | ⟨q, qs⟩
          · exact absurd hsp (splitNl_ne_nil rest)
          · have hsplit : splitNl (c :: rest) = (c :: q) :: qs := by
              simp [splitNl, hc, hsp]
            cases qs with
            | nil =>
                have hq : q = [] := by
                  have h2 := ih hlast
                  rw [hsp] at h2
                  simpa using h2
                have h3 := joinNl_splitNl rest
                rw [hsp, hq] at h3
                exact absurd h3.symm hrest
            | cons q2 qs2 =>
                rw [hsplit, List.getLastD_cons]
                have h2 := ih hlast
                rw [hsp, List.getLastD_cons] at h2
                rw [getLastD_irrel (q2 :: qs2) (by simp) (c :: q) q]
                exact h2

theorem splitNl_getLastD_of_end_not_nl :
    ∀ t : Text, t ≠ [] → t.getLast? ≠ Option.some '\n' → (splitNl t).getLastD [] ≠ [] := by
  intro t
  induction t with
  | nil => intro h; exact absurd rfl h
  | cons c rest ih =>
      intro _ h
      by_cases hrest : rest = []
      · subst hrest
        have hc : ¬(c = '\n') := by
          intro hc
          exact h (by simp [hc])
        have hsplit : splitNl [c] = [[c]] := by
          simp [splitNl, hc]
        rw [hsplit]
        simp
      · have hlast : rest.getLast? ≠ Option.some '\n' := by
          rcases rest with _ | ⟨r, rs⟩
          · exact absurd rfl hrest
          · rw [List.getLast?_cons_cons] at h
            exact h
        by_cases hc : c = '\n'
        · have hsplit : splitNl (c :: rest) = [] :: splitNl rest := by
            simp [splitNl, hc]
          rw [hsplit, List.getLastD_cons]
          exact ih hrest hlast
        · rcases hsp : splitNl rest with _ | ⟨q, qs⟩
          · exact absurd hsp (splitNl_ne_nil rest)
          · have hsplit : splitNl (c :: rest) = (c :: q) :: qs := by
              simp [splitNl, hc, hsp]
            cases qs with
            | nil =>
                rw [hsplit]
                simp
            | cons q2 qs2 =>
                rw [hsplit, List.getLastD_cons]
                have h2 := ih hrest hlast
                rw [hsp, List.getLastD_cons] at h2
                rw [getLastD_irrel (q2 :: qs2) (by simp) (c :: q) q]
                exact h2

theorem decodedText_all_empty (dec : List Byte → Text) :
    ∀ chunks : List (List Byte), (∀ c ∈ chunks, c = []) → decodedText dec chunks = [] := by
  intro chunks
  induction chunks with
  | nil => intro h2; rfl
  | cons c rest ih =>
      intro hall
      have hc : c = [] := hall c (List.mem_cons_self c rest)
      have hrest : ∀ x ∈ rest, x = [] := fun x hx => hall x (List.mem_cons_of_mem c hx)
      simp [decodedText, hc, ih hrest]

theorem totalBytes_all_empty :
    ∀ chunks : List (List Byte), (∀ c ∈ chunks, c = []) → totalBytes chunks = 0 := by
  intro chunks
  induction chunks with
  | nil => intro h2; rfl
  | cons c rest ih =>
      intro hall
      have hc : c = [] := hall c (List.mem_cons_self c rest)
      have hrest : ∀ x ∈ rest, x = [] := fun x hx => hall x (List.mem_cons_of_mem c hx)
      simp [totalBytes, hc, ih hrest]

/-- C3 counterexample: format detection is NOT `none` for every stream object.
A binary stream whose `name` attribute is `"data.gz"` (e.g. the result of
`open("data.gz", "rb")`) is detected as gzip, because `_initialize_file_properties`
copies the stream's `name` into `self.file_path` and `_detect_compression_type`
only looks at `self.file_path`. -/
theorem C3_stream_name_detect_cex :
    readerFormat (FileSrc.stream ⟨Option.some "data.gz".toList, Option.some "rb".toList, true⟩) =
      Except.ok Fmt.gz ∧ Fmt.gz ≠ Fmt.none := by
  constructor
  · rfl
  · decide

/-- C3 (amended): format detection is a pure function of the suffix of the
reader's `file_path` — the path itself for a path source, the stream's `name`
attribute (defaulting to `"<unknown>"`, hence format `none`) for a stream
source; a path with no recognized compression suffix maps to `none`, and an
unknown suffix is never an error (detection is total). -/
theorem C3_detect_amended :
    (∀ s : StreamObj, s.name? = Option.none →
       ∀ props, init_file_props (FileSrc.stream s) = Except.ok props →
         detect_compression_type props.file_path = Fmt.none) ∧
    (∀ p q : Text,
       ".gz".toList.isSuffixOf p = ".gz".toList.isSuffixOf q →
       ".bz2".toList.isSuffixOf p = ".bz2".toList.isSuffixOf q →
       ".xz".toList.isSuffixOf p = ".xz".toList.isSuffixOf q →
       ".lzma".toList.isSuffixOf p = ".lzma".toList.isSuffixOf q →
       detect_compression_type p = detect_compression_type q) ∧
    (∀ p : Text,
       ".gz".toList.isSuffixOf p = false → ".bz2".toList.isSuffixOf p = false →
       ".xz".toList.isSuffixOf p = false → ".lzma".toList.isSuffixOf p = false →
       detect_compression_type p = Fmt.none) := by
  refine ⟨?_, ?_, ?_⟩
  · intro s hname props hok
    have hfp : props.file_path = "<unknown>".toList := by
      cases s with
      | mk n m bin =>
        cases hname
        simp only [init_file_props] at hok
        cases m with
        | none =>
            cases hok
            rfl
        | some mv =>
            by_cases hb : (mv.contains 'b') = false
            · simp only [hb, if_true] at hok
              exact Except.noConfusion hok
            · simp only [hb, if_false] at hok
              cases hok
              rfl
    rw [hfp]
    decide
  · intro p q h1 h2 h3 h4
    simp only [detect_compression_type, h1, h2, h3, h4]
  · intro p h1 h2 h3 h4
    simp only [detect_compression_type, h1, h2, h3, h4]
    decide

/-- Witness for C3 (amended): a modeless stream with no name detects as
`none`; the path `"file.txt"` has no recognized suffix and detects as `none`. -/
theorem C3_detect_amended_witness :
    detect_compression_type "<unknown>".toList = Fmt.none ∧
    detect_compression_type "file.txt".toList = Fmt.none := by
  constructor
  · exact C3_detect_amended.1 ⟨Option.none, Option.none, true⟩ rfl
      ⟨"<unknown>".toList, Option.some ⟨Option.none, Option.none, true⟩⟩ rfl
  · exact C3_detect_amended.2.2 "file.txt".toList (by decide) (by decide) (by decide) (by decide)

/-- C6 counterexample: a non-binary stream that does not expose a `mode`
attribute (e.g. `io.StringIO`) is accepted by the constructor — no
ConfigurationError is raised, because the check in
`_initialize_file_properties` is guarded by `hasattr(self.file_obj, "mode")`. -/
theorem C6_modeless_stream_cex :
    init_file_props (FileSrc.stream ⟨Option.none, Option.none, false⟩) =
      Except.ok ⟨"<unknown>".toList, Option.some ⟨Option.none, Option.none, false⟩⟩ := by
  rfl

/-- C6 (amended): the constructor raises `ValueError` before any chunk is
read exactly for those streams that expose a `mode` attribute not containing
the letter `b`; a stream without a `mode` attribute is accepted unchecked,
whether or not it is actually binary. -/
theorem C6_binary_check_amended :
    (∀ (s : StreamObj) (m : Text), s.mode? = Option.some m →
       (m.contains 'b') = false →
       init_file_props (FileSrc.stream s) =
         Except.error "file_obj must be opened in binary mode") ∧
    (∀ s : StreamObj, s.mode? = Option.none →
       init_file_props (FileSrc.stream s) =
         Except.ok ⟨s.name?.getD "<unknown>".toList, Option.some s⟩) := by
  constructor
  · intro s m hm hb
    cases s with
    | mk n mo bin =>
      cases hm
      simp only [init_file_props, hb, if_true]
  · intro s hm
    cases s with
    | mk n mo bin =>
      cases hm
      rfl

/-- Witness for C6 (amended): a text-mode stream (`mode = "r"`) is rejected,
and a modeless binary stream is accepted. -/
theorem C6_binary_check_amended_witness :
    init_file_props (FileSrc.stream ⟨Option.none, Option.some "r".toList, false⟩) =
      Except.error "file_obj must be opened in binary mode" ∧
    init_file_props (FileSrc.stream ⟨Option.some "a".toList, Option.none, true⟩) =
      Except.ok ⟨"a".toList, Option.some ⟨Option.some "a".toList, Option.none, true⟩⟩ := by
  constructor
  · exact C6_binary_check_amended.1 ⟨Option.none, Option.some "r".toList, false⟩
      "r".toList rfl (by decide)
  · exact C6_binary_check_amended.2 ⟨Option.some "a".toList, Option.none, true⟩ rfl

/-- C9: `close()` is idempotent — calling it any number of times from any
reader state equals calling it once; afterwards `self.closed` is `True` and
any underlying file object is closed (the resource is released). -/
theorem C9_close_idempotent :
    (∀ s : CloseState, close (close s) = close s) ∧
    (∀ (s : CloseState) (n : Nat), close^[n + 1] s = close s) ∧
    (∀ s : CloseState, (close s).closed = true ∧
       ((close s).file_obj = Option.none ∨ (close s).file_obj = Option.some true)) := by
  have hidem : ∀ s : CloseState, close (close s) = close s := by
    intro s
    cases s with
    | mk fo c =>
      cases fo with
      | none => rfl
      | some b => cases b <;> rfl
  refine ⟨hidem, ?_, ?_⟩
  · intro s n
    induction n with
    | zero => rfl
    | succ k ih =>
        rw [Function.iterate_succ_apply', ih, hidem]
  · intro s
    cases s with
    | mk fo c =>
      cases fo with
      | none => exact ⟨rfl, Or.inl rfl⟩
      | some b => cases b <;> exact ⟨rfl, Or.inr rfl⟩

/-- C10: an explicit `chunk_size` of `0` silently falls back to the format's
default chunk size (Python truthiness of `if self.user_chunk_size:`), exactly
as an omitted chunk size does; a caller-supplied chunk size takes effect
exactly when it is nonzero. -/
theorem C10_chunk_size_truthy :
    (∀ f : Fmt, get_chunk_size (Option.some 0) f = DEFAULT_CHUNK_SIZES f) ∧
    (∀ f : Fmt, get_chunk_size Option.none f = DEFAULT_CHUNK_SIZES f) ∧
    (∀ (f : Fmt) (n : Int), n ≠ 0 → get_chunk_size (Option.some n) f = n) := by
  refine ⟨?_, ?_, ?_⟩
  · intro f
    rfl
  · intro f
    rfl
  · intro f n hn
    simp only [get_chunk_size, if_pos hn]

/-- Witness for C10: with an explicit `chunk_size = 0` and gzip format the
default 32 MiB is used, while an explicit `4096` is used verbatim. -/
theorem C10_chunk_size_truthy_witness :
    get_chunk_size (Option.some 0) Fmt.gz = 32 * 1024 * 1024 ∧
    get_chunk_size (Option.some 4096) Fmt.gz = 4096 := by
  constructor
  · exact (C10_chunk_size_truthy.1 Fmt.gz).trans (by decide)
  · exact C10_chunk_size_truthy.2.2 Fmt.gz 4096 (by decide)

/-- C1: the claim fails on the code — a two-byte UTF-8 character split at a
chunk boundary is NOT decoded to the correct character.  The bytes of `é`
(`0xC3 0xA9`) decode to `é` as a whole, but `_read_lines_from_chunks` decodes
each chunk in isolation, so with the split `[0xC3] / [0xA9]` the reader
yields two U+FFFD replacement characters instead (the class docstring
promises the opposite: "Safely handles chunk boundaries for any encoding"). -/
theorem C1_boundary_split_bug :
    pyDecodeUtf8Replace [0xC3, 0xA9] = [Char.ofNat 0xE9] ∧
    (read_lines_from_chunks pyDecodeUtf8Replace ⟨0, 0⟩ [[0xC3], [0xA9]]).1 =
      [[repl, repl]] ∧
    [[repl, repl]] ≠ [[Char.ofNat 0xE9]] := by
  refine ⟨by decide, by decide, by decide⟩

/-- C2: the claim fails on the code — the line sequence is NOT independent of
the chunk size.  For the byte stream `é\n` (`0xC3 0xA9 0x0A`), chunk size 1
yields the single line `U+FFFD U+FFFD` while chunk size 2 yields the single
line `é`, because each chunk is decoded in isolation. -/
theorem C2_chunk_size_dependence :
    (read_lines_from_chunks pyDecodeUtf8Replace ⟨0, 0⟩ (chunksOf 1 [0xC3, 0xA9, 0x0A])).1 =
      [[repl, repl]] ∧
    (read_lines_from_chunks pyDecodeUtf8Replace ⟨0, 0⟩ (chunksOf 2 [0xC3, 0xA9, 0x0A])).1 =
      [[Char.ofNat 0xE9]] ∧
    [[repl, repl]] ≠ [[Char.ofNat 0xE9]] := by
  refine ⟨by decide, by decide, by decide⟩

/-- C4: the claim fails on the code — re-joining the yielded lines with the
terminator does NOT reconstruct the decoded content of the byte stream when a
multi-byte character straddles a chunk boundary.  For the bytes of `€`
(`0xE2 0x82 0xAC`) split as `[0xE2] / [0x82, 0xAC]`, the stream decodes to
`€` but the reader's lines re-join to three U+FFFD characters. -/
theorem C4_roundtrip_bug :
    pyDecodeUtf8Replace [0xE2, 0x82, 0xAC] = [Char.ofNat 0x20AC] ∧
    joinNl (read_lines_from_chunks pyDecodeUtf8Replace ⟨0, 0⟩ [[0xE2], [0x82, 0xAC]]).1 =
      [repl, repl, repl] ∧
    [repl, repl, repl] ≠ [Char.ofNat 0x20AC] := by
  refine ⟨by decide, by decide, by decide⟩

/-- C5: in the buffered-threaded path, composing the producer with the
consumer delivers exactly the chunks read before end-of-stream or failure, in
order; a read failure is pushed through the queue as the error object itself
and re-raised by the consumer at the point the failing chunk would next be
consumed (never dropped); the sentinel terminates the sequence; every other
queue value is yielded as a chunk.  Moreover the producer always terminates
its push sequence with either the sentinel or an error object. -/
theorem C5_queue_propagation :
    (∀ src : List ReadOutcome, consumeQueue (chunk_reader src) = bufferedDeliverySpec src) ∧
    (∀ src : List ReadOutcome,
       (chunk_reader src).getLastD QItem.sentinel = QItem.sentinel ∨
       ∃ e, (chunk_reader src).getLastD QItem.sentinel = QItem.exn e) := by
  constructor
  · intro src
    induction src with
    | nil => rfl
    | cons o rest ih =>
        cases o with
        | ok b =>
            by_cases hb : b = []
            · simp only [chunk_reader, bufferedDeliverySpec, hb, if_true]
              rfl
            · simp only [chunk_reader, bufferedDeliverySpec, hb, if_false, consumeQueue, ih]
        | err e => rfl
  · intro src
    induction src with
    | nil => exact Or.inl rfl
    | cons o rest ih =>
        cases o with
        | ok b =>
            by_cases hb : b = []
            · simp only [chunk_reader, hb, if_true]
              exact Or.inl rfl
            · simp only [chunk_reader, hb, if_false]
              have hne : chunk_reader rest ≠ [] := by
                cases rest with
                | nil => simp [chunk_reader]
                | cons o2 r2 =>
                    cases o2 with
                    | ok b2 =>
                        by_cases hb2 : b2 = [] <;> simp [chunk_reader, hb2]
                    | err e2 => simp [chunk_reader]
              rcases h : chunk_reader rest with _ | ⟨q, qs⟩
              · exact absurd h hne
              · rw [h] at ih
                simp only [List.getLastD_cons] at ih ⊢
                exact ih
        | err e => exact Or.inr ⟨e, rfl⟩

/-- C7: end-of-stream handling of the final accumulator.  For any per-chunk
decode function and any chunk sequence, write `T` for the decoded text the
reader assembles (concatenation of the per-chunk decodes).  If `T` ends
exactly on a line terminator, the yielded lines are precisely the
terminator-delimited fragments — no trailing empty line is produced by the
final flush — and re-joining them and re-appending the final newline
reconstructs `T`.  If `T` ends in a non-empty unterminated fragment, that
fragment is yielded as the last line.  In particular decoded content
`"x\ny\n"` yields exactly `["x", "y"]` (see the witness). -/
theorem C7_terminator_handling :
    ∀ (dec : List Byte → Text) (st : RState) (chunks : List (List Byte)),
      ((decodedText dec chunks).getLast? = Option.some '\n' →
        (read_lines_from_chunks dec st chunks).1 =
          (splitNl (decodedText dec chunks)).dropLast ∧
        joinNl (read_lines_from_chunks dec st chunks).1 ++ ['\n'] =
          decodedText dec chunks) ∧
      (decodedText dec chunks ≠ [] →
        (decodedText dec chunks).getLast? ≠ Option.some '\n' →
        (read_lines_from_chunks dec st chunks).1 = splitNl (decodedText dec chunks) ∧
        joinNl (read_lines_from_chunks dec st chunks).1 = decodedText dec chunks ∧
        (read_lines_from_chunks dec st chunks).1.getLastD [] ≠ []) := by
  intro dec st chunks
  have h1 : (read_lines_from_chunks dec st chunks).1 =
      (if (splitNl (decodedText dec chunks)).getLastD [] = [] then
        (splitNl (decodedText dec chunks)).dropLast
       else splitNl (decodedText dec chunks)) := by
    rw [read_lines_eq]
  set T := decodedText dec chunks with hT
  set S := splitNl T with hS
  constructor
  · intro ht
    have h0 : S.getLastD [] = [] := by
      rw [hS]
      exact splitNl_getLastD_of_end_nl T ht
    have hlines : (read_lines_from_chunks dec st chunks).1 = S.dropLast := by
      rw [h1, if_pos h0]
    refine ⟨hlines, ?_⟩
    have hTne : T ≠ [] := by
      intro h2
      rw [h2] at ht
      exact Option.noConfusion ht
    have hSne : S ≠ [] := by
      rw [hS]
      exact splitNl_ne_nil T
    have hfull : S.dropLast ++ [S.getLastD []] = S :=
      dropLast_append_getLastD S hSne []
    rw [h0] at hfull
    have hjoin : joinNl S = T := by
      rw [hS]
      exact joinNl_splitNl T
    have hL : S.dropLast ≠ [] := by
      intro h2
      rw [h2, List.nil_append] at hfull
      rw [← hfull] at hjoin
      have h4 : ([] : Text) = T := hjoin
      exact hTne h4.symm
    rw [hlines]
    calc joinNl S.dropLast ++ ['\n']
        = joinNl (S.dropLast ++ [[]]) := by rw [joinNl_append_last S.dropLast hL []]
      _ = joinNl S := by rw [hfull]
      _ = T := hjoin
  · intro hne hnl
    have h0 : S.getLastD [] ≠ [] := by
      rw [hS]
      exact splitNl_getLastD_of_end_not_nl T hne hnl
    have hlines : (read_lines_from_chunks dec st chunks).1 = S := by
      rw [h1, if_neg h0]
    refine ⟨hlines, ?_, ?_⟩
    · rw [hlines, hS]
      exact joinNl_splitNl T
    · rw [hlines]
      exact h0

/-- Witness for C7: the decoded content `"x\ny\n"` (bytes `78 0A 79 0A` split
across two chunks) yields exactly the lines `["x", "y"]`, and the content
`"a\n b"` yields `["a", " b"]` with the unterminated fragment `" b"` last. -/
theorem C7_terminator_handling_witness :
    (read_lines_from_chunks pyDecodeUtf8Replace ⟨0, 0⟩ [[120, 10], [121, 10]]).1 =
      [['x'], ['y']] ∧
    (read_lines_from_chunks pyDecodeUtf8Replace ⟨0, 0⟩ [[97, 10, 32], [98]]).1 =
      [['a'], [' ', 'b']] := by
  constructor
  · have h :=
      (C7_terminator_handling pyDecodeUtf8Replace ⟨0, 0⟩ [[120, 10], [121, 10]]).1 (by decide)
    exact h.1.trans (by decide)
  · have h :=
      (C7_terminator_handling pyDecodeUtf8Replace ⟨0, 0⟩ [[97, 10, 32], [98]]).2
        (by decide) (by decide)
    exact h.1.trans (by decide)

/-- C8: an empty source (no chunks, or only empty reads) yields zero lines
and leaves the counters at 0 lines / 0 bytes; the statistics snapshot then
reports 0 lines, 0 bytes, and — whatever the elapsed time, including exactly
zero — 0 lines/sec and 0 MB/sec, the zero-elapsed case being handled by the
`if self._total_time > 0` guard rather than a division fault. -/
theorem C8_empty_source_stats :
    (∀ dec : List Byte → Text,
       read_lines_from_chunks dec ⟨0, 0⟩ [] = ([], ⟨0, 0⟩)) ∧
    (∀ (dec : List Byte → Text) (chunks : List (List Byte)),
       (∀ c ∈ chunks, c = []) →
       read_lines_from_chunks dec ⟨0, 0⟩ chunks = ([], ⟨0, 0⟩)) ∧
    (∀ (fp : Option Text) (m : Option String) (t : ℚ),
       (get_stats fp m 0 0 t).lines = 0 ∧
       (get_stats fp m 0 0 t).bytes = 0 ∧
       (get_stats fp m 0 0 t).lines_per_s = 0 ∧
       (get_stats fp m 0 0 t).mb_per_s = 0) ∧
    (∀ (fp : Option Text) (m : Option String) (line_count bytes_processed : Nat),
       (get_stats fp m line_count bytes_processed 0).lines_per_s = 0 ∧
       (get_stats fp m line_count bytes_processed 0).mb_per_s = 0) := by
  refine ⟨?_, ?_, ?_, ?_⟩
  · intro dec
    rfl
  · intro dec chunks hall
    rw [read_lines_eq, decodedText_all_empty dec chunks hall, totalBytes_all_empty chunks hall]
    decide
  · intro fp m t
    refine ⟨rfl, rfl, ?_, ?_⟩
    · by_cases ht : 0 < t <;> simp [get_stats, ht]
    · by_cases ht : 0 < t <;> simp [get_stats, round2, ht]
  · intro fp m line_count bytes_processed
    constructor
    · simp [get_stats]
    · simp [get_stats, round2]

/-- Witness for C8: a source delivering two empty reads yields no lines and
zero counters, and the zero-time statistics report zero throughput. -/
theorem C8_empty_source_stats_witness :
    read_lines_from_chunks pyDecodeUtf8Replace ⟨0, 0⟩ [[], []] = ([], ⟨0, 0⟩) ∧
    (get_stats Option.none Option.none 0 0 0).lines_per_s = 0 ∧
    (get_stats Option.none Option.none 0 0 0).mb_per_s = 0 := by
  refine ⟨?_, ?_, ?_⟩
  · exact C8_empty_source_stats.2.1 pyDecodeUtf8Replace [[], []] (by decide)
  · exact (C8_empty_source_stats.2.2.1 Option.none Option.none 0).2.2.1
  · exact (C8_empty_source_stats.2.2.1 Option.none Option.none 0).2.2.2
